import Mathlib

/-!
Verification development for the ECIES FFI boundary layer
(`src/android/src/lib.rs` of `elefantel/ecies-rust-ffi`).

The repository is a thin foreign-function boundary over the external
`ecies`, `hex` and `base64` crates.  The boundary plumbing (hexadecimal
and base64 text codecs, C-string semantics, unwrap-on-first-error control
flow) is embedded here directly from the source.  The elliptic-curve and
authenticated-cipher primitives live in external crates, outside this
repository; following the specification, which treats them as external
primitives with a stated contract, they are modelled concretely below
(ideal Diffie-Hellman group, ideal authenticated cipher) in definitions
whose doc comments start with `Modelled from the spec:`.
-/

/-! ### Fixed-width byte encodings of natural numbers -/

/-- Little-endian byte encoding of `v`, exactly `n` bytes. -/
def natToBytesLE : Nat → Nat → List Nat
  | 0, _ => []
  | n + 1, v => v % 256 :: natToBytesLE n (v / 256)

/-- Little-endian byte decoding. -/
def bytesToNatLE : List Nat → Nat
  | [] => 0
  | b :: t => b + 256 * bytesToNatLE t

/-- Big-endian byte encoding of `v`, exactly `n` bytes (as the external
libraries serialize keys). -/
def natToBytesBE (n v : Nat) : List Nat := (natToBytesLE n v).reverse

/-- Big-endian byte decoding. -/
def bytesToNatBE (l : List Nat) : Nat := bytesToNatLE l.reverse

theorem natToBytesLE_length (n v : Nat) : (natToBytesLE n v).length = n := by
  induction n generalizing v with
  | zero => rfl
  | succ n ih => simp [natToBytesLE, ih]

theorem natToBytesBE_length (n v : Nat) : (natToBytesBE n v).length = n := by
  simp [natToBytesBE, natToBytesLE_length]

theorem natToBytesLE_mem_lt (n v : Nat) : ∀ b ∈ natToBytesLE n v, b < 256 := by
  induction n generalizing v with
  | zero => intro b hb; simp [natToBytesLE] at hb
  | succ n ih =>
    intro b hb
    simp only [natToBytesLE, List.mem_cons] at hb
    rcases hb with h | h
    · omega
    · exact ih _ b h

theorem natToBytesBE_mem_lt (n v : Nat) : ∀ b ∈ natToBytesBE n v, b < 256 := by
  intro b hb
  exact natToBytesLE_mem_lt n v b (List.mem_reverse.mp hb)

theorem bytesToNatLE_natToBytesLE (n v : Nat) (h : v < 256 ^ n) :
    bytesToNatLE (natToBytesLE n v) = v := by
  induction n generalizing v with
  | zero => simp [natToBytesLE, bytesToNatLE]; omega
  | succ n ih =>
    have hdiv : v / 256 < 256 ^ n := by
      have : v < 256 ^ n * 256 := by
        calc v < 256 ^ (n + 1) := h
        _ = 256 ^ n * 256 := by ring
      exact Nat.div_lt_of_lt_mul (by omega)
    simp [natToBytesLE, bytesToNatLE, ih (v / 256) hdiv]
    omega

theorem bytesToNatBE_natToBytesBE (n v : Nat) (h : v < 256 ^ n) :
    bytesToNatBE (natToBytesBE n v) = v := by
  simp [natToBytesBE, bytesToNatBE, bytesToNatLE_natToBytesLE n v h]

theorem natToBytesLE_inj {n a b : Nat} (ha : a < 256 ^ n) (hb : b < 256 ^ n)
    (h : natToBytesLE n a = natToBytesLE n b) : a = b := by
  have := bytesToNatLE_natToBytesLE n a ha
  rw [h, bytesToNatLE_natToBytesLE n b hb] at this
  omega

theorem natToBytesBE_inj {n a b : Nat} (ha : a < 256 ^ n) (hb : b < 256 ^ n)
    (h : natToBytesBE n a = natToBytesBE n b) : a = b := by
  apply natToBytesLE_inj ha hb
  have := congrArg List.reverse h
  simpa [natToBytesBE] using this

theorem bytesToNatLE_inj : ∀ (l1 l2 : List Nat), l1.length = l2.length →
    (∀ b ∈ l1, b < 256) → (∀ b ∈ l2, b < 256) →
    bytesToNatLE l1 = bytesToNatLE l2 → l1 = l2
  | [], [], _, _, _, _ => rfl
  | b1 :: t1, b2 :: t2, hl, h1, h2, heq => by
    simp only [bytesToNatLE] at heq
    have hb1 : b1 < 256 := h1 b1 (by simp)
    have hb2 : b2 < 256 := h2 b2 (by simp)
    have hb : b1 = b2 ∧ bytesToNatLE t1 = bytesToNatLE t2 := by omega
    have ht : t1 = t2 := by
      apply bytesToNatLE_inj t1 t2 (by simpa using hl)
        (fun b hb => h1 b (by simp [hb])) (fun b hb => h2 b (by simp [hb])) hb.2
    rw [hb.1, ht]

theorem bytesToNatBE_inj {l1 l2 : List Nat} (hl : l1.length = l2.length)
    (h1 : ∀ b ∈ l1, b < 256) (h2 : ∀ b ∈ l2, b < 256)
    (heq : bytesToNatBE l1 = bytesToNatBE l2) : l1 = l2 := by
  have := bytesToNatLE_inj l1.reverse l2.reverse (by simpa using hl)
    (fun b hb => h1 b (List.mem_reverse.mp hb))
    (fun b hb => h2 b (List.mem_reverse.mp hb)) heq
  have := congrArg List.reverse this
  simpa using this

/-! ### Hexadecimal codec (the `hex` crate at the boundary) -/

/-- Lowercase hexadecimal digit, as produced by `hex::encode`. -/
def hexDigitChar (n : Nat) : Char :=
  if n < 10 then Char.ofNat (48 + n) else Char.ofNat (87 + n)

/-- Value of one hexadecimal digit; `hex::decode` accepts both cases. -/
def hexDigitVal (c : Char) : Option Nat :=
  if 48 ≤ c.toNat ∧ c.toNat ≤ 57 then some (c.toNat - 48)
  else if 97 ≤ c.toNat ∧ c.toNat ≤ 102 then some (c.toNat - 87)
  else if 65 ≤ c.toNat ∧ c.toNat ≤ 70 then some (c.toNat - 55)
  else none

/-- `hex::encode`: two lowercase digits per byte, high nibble first. -/
def hexEncode : List Nat → List Char
  | [] => []
  | b :: t => hexDigitChar (b / 16) :: hexDigitChar (b % 16) :: hexEncode t

/-- Error kinds surfaced while decoding a key at the boundary.
`oddLength` and `invalidChar` are the `hex::decode` failures, and
`invalidLength` / `invalidScalar` are the two distinct failures of the
external `SecretKey::parse_slice` (wrong byte count, value not a valid
non-zero scalar below the curve order). -/
inductive FfiError
  | oddLength
  | invalidChar
  | invalidLength
  | invalidScalar
deriving DecidableEq, Repr

/-- The spec's `DecodeError` class: every key-decoding failure except the
`InvalidKey` case reserved for decoded bytes that are not a valid scalar. -/
def isDecodeError : FfiError → Bool
  | .oddLength => true
  | .invalidChar => true
  | .invalidLength => true
  | .invalidScalar => false

/-- The pairwise digit loop of `hex::decode` (called on even-length input). -/
def hexDecodePairs : List Char → Except FfiError (List Nat)
  | [] => .ok []
  | c1 :: c2 :: t =>
    match hexDigitVal c1, hexDigitVal c2 with
    | some h, some l => (hexDecodePairs t).map (fun bs => (16 * h + l) :: bs)
    | _, _ => .error .invalidChar
  | _ => .error .oddLength

/-- `hex::decode`: rejects odd length first, then decodes digit pairs. -/
def hexDecodeE (s : List Char) : Except FfiError (List Nat) :=
  if s.length % 2 = 1 then .error .oddLength else hexDecodePairs s

theorem hexDigitVal_hexDigitChar : ∀ n < 16, hexDigitVal (hexDigitChar n) = some n := by
  decide

theorem hexEncode_length (bs : List Nat) : (hexEncode bs).length = 2 * bs.length := by
  induction bs with
  | nil => rfl
  | cons b t ih => simp [hexEncode, ih]; omega

theorem hexDecodePairs_hexEncode : ∀ (bs : List Nat), (∀ b ∈ bs, b < 256) →
    hexDecodePairs (hexEncode bs) = .ok bs
  | [], _ => rfl
  | b :: t, h => by
    have hb : b < 256 := h b (by simp)
    have e1 : hexDigitVal (hexDigitChar (b / 16)) = some (b / 16) :=
      hexDigitVal_hexDigitChar _ (by omega)
    have e2 : hexDigitVal (hexDigitChar (b % 16)) = some (b % 16) :=
      hexDigitVal_hexDigitChar _ (by omega)
    have ih := hexDecodePairs_hexEncode t (fun b hb => h b (by simp [hb]))
    simp [hexEncode, hexDecodePairs, e1, e2, ih, Except.map]
    omega

theorem hexDecodeE_hexEncode (bs : List Nat) (h : ∀ b ∈ bs, b < 256) :
    hexDecodeE (hexEncode bs) = .ok bs := by
  simp [hexDecodeE, hexEncode_length, Nat.mul_mod_right, hexDecodePairs_hexEncode bs h]

/-- A character is a lowercase hexadecimal digit. -/
def isLowerHexDigit (c : Char) : Bool :=
  (48 ≤ c.toNat ∧ c.toNat ≤ 57) ∨ (97 ≤ c.toNat ∧ c.toNat ≤ 102)

theorem isLowerHexDigit_hexDigitChar : ∀ n < 16, isLowerHexDigit (hexDigitChar n) = true := by
  decide

theorem hexEncode_lower (bs : List Nat) (h : ∀ b ∈ bs, b < 256) :
    ∀ c ∈ hexEncode bs, isLowerHexDigit c = true := by
  induction bs with
  | nil => intro c hc; simp [hexEncode] at hc
  | cons b t ih =>
    intro c hc
    have hb : b < 256 := h b (by simp)
    simp only [hexEncode, List.mem_cons] at hc
    rcases hc with rfl | hc
    · exact isLowerHexDigit_hexDigitChar _ (by omega)
    rcases hc with rfl | hc
    · exact isLowerHexDigit_hexDigitChar _ (by omega)
    · exact ih (fun b hb => h b (by simp [hb])) c hc

/-! ### Base64 codec (the `base64` crate, standard alphabet with padding) -/

/-- Standard base64 alphabet character for a 6-bit value. -/
def b64Char (n : Nat) : Char :=
  if n < 26 then Char.ofNat (65 + n)
  else if n < 52 then Char.ofNat (71 + n)
  else if n < 62 then Char.ofNat (n - 4)
  else if n = 62 then '+' else '/'

/-- Value of a standard base64 alphabet character. -/
def b64Val (c : Char) : Option Nat :=
  if 65 ≤ c.toNat ∧ c.toNat ≤ 90 then some (c.toNat - 65)
  else if 97 ≤ c.toNat ∧ c.toNat ≤ 122 then some (c.toNat - 71)
  else if 48 ≤ c.toNat ∧ c.toNat ≤ 57 then some (c.toNat + 4)
  else if c = '+' then some 62
  else if c = '/' then some 63
  else none

/-- `base64::encode`: three bytes to four characters, `=`-padded tail. -/
def b64encode : List Nat → List Char
  | [] => []
  | [b1] => [b64Char (b1 / 4), b64Char (b1 % 4 * 16), '=', '=']
  | [b1, b2] => [b64Char (b1 / 4), b64Char (b1 % 4 * 16 + b2 / 16), b64Char (b2 % 16 * 4), '=']
  | b1 :: b2 :: b3 :: t =>
      b64Char (b1 / 4) :: b64Char (b1 % 4 * 16 + b2 / 16) ::
      b64Char (b2 % 16 * 4 + b3 / 64) :: b64Char (b3 % 64) :: b64encode t

/-- `base64::decode`: four characters at a time, padding only in the last
quantum, non-canonical trailing bits rejected. -/
def b64decode : List Char → Option (List Nat)
  | [] => some []
  | c1 :: c2 :: c3 :: c4 :: rest =>
    match b64Val c1, b64Val c2 with
    | some d1, some d2 =>
      if c3 = '=' then
        if c4 = '=' ∧ rest = [] ∧ d2 % 16 = 0 then some [d1 * 4 + d2 / 16] else none
      else
        match b64Val c3 with
        | some d3 =>
          if c4 = '=' then
            if rest = [] ∧ d3 % 4 = 0 then some [d1 * 4 + d2 / 16, d2 % 16 * 16 + d3 / 4]
            else none
          else
            match b64Val c4 with
            | some d4 =>
                (b64decode rest).map
                  (fun bs => (d1 * 4 + d2 / 16) :: (d2 % 16 * 16 + d3 / 4) :: (d3 % 4 * 64 + d4) :: bs)
            | none => none
        | none => none
    | _, _ => none
  | _ => none

theorem b64Val_b64Char : ∀ n < 64, b64Val (b64Char n) = some n := by
  decide

theorem b64Char_ne_pad : ∀ n < 64, b64Char n ≠ '=' := by
  decide

theorem b64decode_b64encode : ∀ (bs : List Nat), (∀ b ∈ bs, b < 256) →
    b64decode (b64encode bs) = some bs
  | [], _ => rfl
  | [b1], h => by
    have hb1 : b1 < 256 := h b1 (by simp)
    have e1 : b64Val (b64Char (b1 / 4)) = some (b1 / 4) := b64Val_b64Char _ (by omega)
    have e2 : b64Val (b64Char (b1 % 4 * 16)) = some (b1 % 4 * 16) := b64Val_b64Char _ (by omega)
    simp [b64encode, b64decode, e1, e2, b64Char_ne_pad (b1 % 4 * 16) (by omega)]
    omega
  | [b1, b2], h => by
    have hb1 : b1 < 256 := h b1 (by simp)
    have hb2 : b2 < 256 := h b2 (by simp)
    have e1 : b64Val (b64Char (b1 / 4)) = some (b1 / 4) := b64Val_b64Char _ (by omega)
    have e2 : b64Val (b64Char (b1 % 4 * 16 + b2 / 16)) = some (b1 % 4 * 16 + b2 / 16) :=
      b64Val_b64Char _ (by omega)
    have e3 : b64Val (b64Char (b2 % 16 * 4)) = some (b2 % 16 * 4) := b64Val_b64Char _ (by omega)
    simp [b64encode, b64decode, e1, e2, e3, b64Char_ne_pad (b2 % 16 * 4) (by omega)]
    omega
  | b1 :: b2 :: b3 :: t, h => by
    have hb1 : b1 < 256 := h b1 (by simp)
    have hb2 : b2 < 256 := h b2 (by simp)
    have hb3 : b3 < 256 := h b3 (by simp)
    have e1 : b64Val (b64Char (b1 / 4)) = some (b1 / 4) := b64Val_b64Char _ (by omega)
    have e2 : b64Val (b64Char (b1 % 4 * 16 + b2 / 16)) = some (b1 % 4 * 16 + b2 / 16) :=
      b64Val_b64Char _ (by omega)
    have e3 : b64Val (b64Char (b2 % 16 * 4 + b3 / 64)) = some (b2 % 16 * 4 + b3 / 64) :=
      b64Val_b64Char _ (by omega)
    have e4 : b64Val (b64Char (b3 % 64)) = some (b3 % 64) := b64Val_b64Char _ (by omega)
    have ih := b64decode_b64encode t (fun b hb => h b (by simp [hb]))
    match t with
    | [] =>
      simp [b64encode, b64decode, e1, e2, e3, e4,
        b64Char_ne_pad (b2 % 16 * 4 + b3 / 64) (by omega), b64Char_ne_pad (b3 % 64) (by omega)]
      refine ⟨by omega, by omega, by omega⟩
    | t1 :: t2 =>
      have hne : b64encode (t1 :: t2) ≠ [] := by
        match t2 with
        | [] => simp [b64encode]
        | [u] => simp [b64encode]
        | u :: v :: w => simp [b64encode]
      match hb : b64encode (t1 :: t2) with
      | [] => exact absurd hb hne
      | x :: xs =>
        rw [hb] at ih
        simp only [b64encode, b64decode, hb, e1, e2, e3, e4,
          b64Char_ne_pad (b2 % 16 * 4 + b3 / 64) (by omega),
          if_neg (b64Char_ne_pad (b3 % 64) (by omega)), ih]
        simp [if_neg (b64Char_ne_pad (b2 % 16 * 4 + b3 / 64) (by omega)), Option.map]
        refine ⟨by omega, by omega, by omega⟩

/-! ### ECIES engine, modelled from the spec

The curve arithmetic and the authenticated cipher are consumed from
external crates (`ecies`, `libsecp256k1`) and are not part of this
repository.  The spec treats them as external primitives with a stated
contract (ideal Diffie-Hellman agreement; authenticated cipher whose tag
binds key, nonce and ciphertext).  They are modelled concretely below:
a curve point is represented by its discrete logarithm with respect to
the base point, scalar multiplication by natural-number multiplication,
and the authenticated cipher by a positional keyed checksum. -/

/-- Order of the secp256k1 group: a secret key is a scalar in `[1, secpN)`. -/
def secpN : Nat := 0xFFFFFFFFFFFFFFFFFFFFFFFFFFFFFFFEBAAEDCE6AF48A03BBFD25E8CD0364141

/-- `SecretKey::serialize`: 32 bytes, big-endian. -/
def skSerialize (k : Nat) : List Nat := natToBytesBE 32 k

/-- Modelled from the spec: `PublicKey::serialize_compressed` of the external
curve library — 33 bytes, one format byte then the point.  In the ideal-group
model the point `p · G` is represented by its discrete logarithm `p`. -/
def pkSerialize (p : Nat) : List Nat := 2 :: natToBytesBE 32 p

/-- Modelled from the spec: `PublicKey::parse_slice` of the external curve
library — accepts exactly the compressed serializations of valid points. -/
def pkParse (l : List Nat) : Option Nat :=
  match l with
  | h :: rest =>
    if h = 2 ∧ rest.length = 32 then
      if 1 ≤ bytesToNatBE rest ∧ bytesToNatBE rest < secpN then some (bytesToNatBE rest)
      else none
    else none
  | [] => none

/-- Modelled from the spec: the key-derivation function applied to the ECDH
shared secret; an injective derivation suffices for the stated contract. -/
def kdf (s : Nat) : Nat := s

/-- Modelled from the spec: one keystream byte of the symmetric cipher. -/
def ksByte (key i : Nat) : Nat := (key + 131 * i) % 256

/-- Modelled from the spec: the symmetric cipher body, plaintext masked with
the keystream (position `i` onward). -/
def maskBytes (key : Nat) : Nat → List Nat → List Nat
  | _, [] => []
  | i, p :: t => (p + ksByte key i) % 256 :: maskBytes key (i + 1) t

/-- Modelled from the spec: inverse of `maskBytes`. -/
def unmaskBytes (key : Nat) : Nat → List Nat → List Nat
  | _, [] => []
  | i, b :: t => (b + 256 - ksByte key i) % 256 :: unmaskBytes key (i + 1) t

/-- Positional checksum with weight `w * 257 ^ i` for element `i`. -/
def csAux : List Nat → Nat → Nat
  | [], _ => 0
  | b :: t, w => b * w + csAux t (w * 257)

/-- Modulus of the authentication tag (`2 ^ 512`): the tag is 64 bytes. -/
def macM : Nat :=
  13407807929942597099574024998205846127479365820592393377723561443721764030073546976801874298166903427690031858186486050853753882811946569946433649006084096

theorem macM_eq_pow : macM = 2 ^ 512 := by norm_num [macM]

/-- Modelled from the spec: the authentication tag of the ideal cipher,
binding the symmetric key, the nonce and the ciphertext body. -/
def macOf (key : Nat) (nb : List Nat) : Nat := (key + csAux nb 257) % macM

/-- Modelled from the spec: `ecies::encrypt` — fresh ephemeral scalar `e`
and 16-byte nonce, ECDH with the recipient point, envelope
`ephemeral public key ∥ nonce ∥ tag ∥ body`. -/
def iciesEncrypt (pub e : Nat) (nonce pt : List Nat) : List Nat :=
  let key := kdf (e * pub)
  let body := maskBytes key 0 pt
  pkSerialize e ++ nonce ++ natToBytesLE 64 (macOf key (nonce ++ body)) ++ body

/-- Modelled from the spec: `ecies::decrypt` — parse the envelope, validate
the ephemeral public key, recompute the ECDH secret and the tag, and
release the plaintext only if the tag verifies. -/
def iciesDecrypt (sk : Nat) (env : List Nat) : Option (List Nat) :=
  if env.length < 113 then none
  else
    match pkParse (env.take 33) with
    | none => none
    | some e =>
      let nonce := (env.drop 33).take 16
      let tag := (env.drop 49).take 64
      let body := env.drop 113
      let key := kdf (sk * e)
      if tag = natToBytesLE 64 (macOf key (nonce ++ body)) then
        some (unmaskBytes key 0 body)
      else none

/-! ### The FFI boundary functions (`src/android/src/lib.rs`)

Each boundary function is embedded as a pure function over the text and
byte buffers it reads through the C pointers.  The process-wide secure
random generator is made explicit as an `Entropy` argument holding the
values it would produce during the call; functions that make no random
draw in the source ignore it.  Returning `none` models the source's
unwrap-on-any-error abort of the whole call. -/

/-- The random draws available to one boundary call: the scalar sampled by
`generate_keypair`, and the ephemeral scalar and nonce drawn inside
`ecies::encrypt`. -/
structure Entropy where
  kSample : Nat
  eph : Nat
  nonce : List Nat

/-- The secure generator only emits valid scalars and 16-byte nonces. -/
def ValidEntropy (g : Entropy) : Prop :=
  (1 ≤ g.kSample ∧ g.kSample < secpN) ∧ (1 ≤ g.eph ∧ g.eph < secpN) ∧
    g.nonce.length = 16 ∧ ∀ b ∈ g.nonce, b < 256

instance : DecidablePred ValidEntropy := fun g => by
  unfold ValidEntropy; infer_instance

/-- The key-decoding step shared by `ecies_public_key_from` and
`ecies_decrypt`: `hex::decode` followed by `SecretKey::parse_slice`
(exact 32-byte length, then non-zero scalar below the group order). -/
def decodeSecretKey (s : List Char) : Except FfiError Nat :=
  match hexDecodeE s with
  | .error e => .error e
  | .ok bs =>
    if bs.length ≠ 32 then .error .invalidLength
    else if 1 ≤ bytesToNatBE bs ∧ bytesToNatBE bs < secpN then .ok (bytesToNatBE bs)
    else .error .invalidScalar

/-- `ecies_generate_secret_key`: draw a key pair, keep the secret scalar,
return its serialization as lowercase hex (the hex text contains no NUL, so
`CString::new` cannot fail). -/
def ecies_generate_secret_key (g : Entropy) : List Char :=
  hexEncode (skSerialize g.kSample)

/-- `ecies_public_key_from`: decode the secret key from hex, derive the
public point, return its compressed serialization as lowercase hex.
Any decode or parse failure aborts the whole call (`unwrap`). -/
def ecies_public_key_from (_g : Entropy) (s : List Char) : Option (List Char) :=
  match decodeSecretKey s with
  | .error _ => none
  | .ok k => some (hexEncode (pkSerialize k))

/-- `ecies_encrypt`: decode and parse the recipient public key from hex,
read the message bytes up to the first NUL (`CStr::from_ptr`), encrypt with
a fresh ephemeral scalar and nonce, return the envelope as base64 text. -/
def ecies_encrypt (g : Entropy) (pubHex : List Char) (msg : List Nat) : Option (List Char) :=
  match hexDecodeE pubHex with
  | .error _ => none
  | .ok bs =>
    match pkParse bs with
    | none => none
    | some p => some (b64encode (iciesEncrypt p g.eph g.nonce (msg.takeWhile (fun b => b ≠ 0))))

/-- `ecies_decrypt`: decode the secret key from hex, decode the envelope
from base64, decrypt, and build the returned C string — which fails
(`CString::new`) whenever the recovered plaintext contains a NUL byte. -/
def ecies_decrypt (_g : Entropy) (skHex ctText : List Char) : Option (List Nat) :=
  match decodeSecretKey skHex with
  | .error _ => none
  | .ok k =>
    match b64decode ctText with
    | none => none
    | some env =>
      match iciesDecrypt k env with
      | none => none
      | some pt => if 0 ∈ pt then none else some pt

/-! ### List helper lemmas -/

theorem set_append_left {α : Type} : ∀ (a b : List α) (i : Nat) (x : α), i < a.length →
    (a ++ b).set i x = a.set i x ++ b
  | [], _, _, _, h => by simp at h
  | _ :: t, b, 0, x, _ => rfl
  | c :: t, b, i + 1, x, h => by
    show c :: (t ++ b).set i x = c :: (t.set i x ++ b)
    rw [set_append_left t b i x (by simpa using h)]

theorem set_append_right {α : Type} : ∀ (a b : List α) (i : Nat) (x : α),
    (a ++ b).set (a.length + i) x = a ++ b.set i x
  | [], _, _, _ => by simp
  | c :: t, b, i, x => by
    simp only [List.cons_append, List.length_cons]
    have : t.length + 1 + i = (t.length + i) + 1 := by omega
    rw [this]
    simp only [List.set]
    rw [set_append_right t b i x]

theorem getD_append_left {α : Type} : ∀ (a b : List α) (i : Nat) (d : α), i < a.length →
    (a ++ b).getD i d = a.getD i d
  | [], _, _, _, h => by simp at h
  | c :: t, b, 0, d, _ => rfl
  | c :: t, b, i + 1, d, h => by
    simp only [List.cons_append, List.getD_cons_succ]
    exact getD_append_left t b i d (by simpa using h)

theorem getD_append_right {α : Type} : ∀ (a b : List α) (i : Nat) (d : α),
    (a ++ b).getD (a.length + i) d = b.getD i d
  | [], _, _, _ => by simp
  | c :: t, b, i, d => by
    simp only [List.cons_append, List.length_cons]
    have : t.length + 1 + i = (t.length + i) + 1 := by omega
    rw [this]
    simp only [List.getD_cons_succ]
    exact getD_append_right t b i d

theorem set_ne_of_ne {α : Type} : ∀ (l : List α) (i : Nat) (x d : α), i < l.length →
    x ≠ l.getD i d → l.set i x ≠ l
  | [], i, _, _, h, _ => by simp at h
  | c :: t, 0, x, d, _, hx => by
    simp only [List.getD_cons_zero] at hx
    simp [List.set, hx]
  | c :: t, i + 1, x, d, h, hx => by
    simp only [List.getD_cons_succ] at hx
    have := set_ne_of_ne t i x d (by simpa using h) hx
    simp [List.set, this]

/-! ### Engine-level lemmas -/

theorem secpN_lt : secpN < 2 ^ 256 := by decide

theorem secpN_pos : 0 < secpN := by decide

theorem maskBytes_length (key : Nat) : ∀ (i : Nat) (pt : List Nat),
    (maskBytes key i pt).length = pt.length
  | _, [] => rfl
  | i, p :: t => by simp [maskBytes, maskBytes_length key (i + 1) t]

theorem maskBytes_mem_lt (key : Nat) : ∀ (i : Nat) (pt : List Nat) (b : Nat),
    b ∈ maskBytes key i pt → b < 256
  | i, [], b, h => by simp [maskBytes] at h
  | i, p :: t, b, h => by
    simp only [maskBytes, List.mem_cons] at h
    rcases h with rfl | h
    · exact Nat.mod_lt _ (by omega)
    · exact maskBytes_mem_lt key (i + 1) t b h

theorem unmaskBytes_maskBytes (key : Nat) : ∀ (i : Nat) (pt : List Nat),
    (∀ b ∈ pt, b < 256) → unmaskBytes key i (maskBytes key i pt) = pt
  | _, [], _ => rfl
  | i, p :: t, h => by
    have hp : p < 256 := h p (by simp)
    have hks : ksByte key i < 256 := Nat.mod_lt _ (by omega)
    simp only [maskBytes, unmaskBytes, unmaskBytes_maskBytes key (i + 1) t
      (fun b hb => h b (by simp [hb])), List.cons.injEq, and_true]
    omega

theorem pkSerialize_length (p : Nat) : (pkSerialize p).length = 33 := by
  simp [pkSerialize, natToBytesBE_length]

theorem pkSerialize_mem_lt (p : Nat) : ∀ b ∈ pkSerialize p, b < 256 := by
  intro b hb
  simp only [pkSerialize, List.mem_cons] at hb
  rcases hb with rfl | hb
  · omega
  · exact natToBytesBE_mem_lt 32 p b hb

theorem pkParse_pkSerialize (p : Nat) (h1 : 1 ≤ p) (h2 : p < secpN) :
    pkParse (pkSerialize p) = some p := by
  have hlt : p < 256 ^ 32 := lt_of_lt_of_le h2 (by decide)
  simp [pkParse, pkSerialize, natToBytesBE_length, bytesToNatBE_natToBytesBE 32 p hlt, h1, h2]

theorem decodeSecretKey_roundtrip (k : Nat) (h1 : 1 ≤ k) (h2 : k < secpN) :
    decodeSecretKey (hexEncode (skSerialize k)) = .ok k := by
  have hlt : k < 256 ^ 32 := lt_of_lt_of_le h2 (by decide)
  have hmem := natToBytesBE_mem_lt 32 k
  rw [decodeSecretKey, skSerialize, hexDecodeE_hexEncode _ hmem]
  simp [natToBytesBE_length, bytesToNatBE_natToBytesBE 32 k hlt, h1, h2]

/-- Structured form of `iciesDecrypt` on a well-shaped envelope. -/
theorem iciesDecrypt_parts (sk : Nat) (a b c d : List Nat)
    (ha : a.length = 33) (hb : b.length = 16) (hc : c.length = 64) :
    iciesDecrypt sk (a ++ b ++ c ++ d) =
      match pkParse a with
      | none => none
      | some e =>
        if c = natToBytesLE 64 (macOf (kdf (sk * e)) (b ++ d)) then
          some (unmaskBytes (kdf (sk * e)) 0 d)
        else none := by
  have hlen : (a ++ b ++ c ++ d).length = 113 + d.length := by
    simp [List.length_append, ha, hb, hc]; omega
  have htake : (a ++ b ++ c ++ d).take 33 = a := by
    rw [List.append_assoc, List.append_assoc, ← ha]
    exact List.take_left a _
  have hdrop33 : (a ++ b ++ c ++ d).drop 33 = b ++ (c ++ d) := by
    rw [List.append_assoc, List.append_assoc, ← ha]
    exact List.drop_left a _
  have hnonce : ((a ++ b ++ c ++ d).drop 33).take 16 = b := by
    rw [hdrop33, ← hb]
    exact List.take_left b _
  have hdrop49 : (a ++ b ++ c ++ d).drop 49 = c ++ d := by
    have : (49 : Nat) = 33 + 16 := by omega
    rw [this, ← List.drop_drop, hdrop33, ← hb]
    exact List.drop_left b _
  have htag : ((a ++ b ++ c ++ d).drop 49).take 64 = c := by
    rw [hdrop49, ← hc]
    exact List.take_left c _
  have hbody : (a ++ b ++ c ++ d).drop 113 = d := by
    have : (113 : Nat) = 49 + 64 := by omega
    rw [this, ← List.drop_drop, hdrop49, ← hc]
    exact List.drop_left c _
  have hnb : ((a ++ b ++ c ++ d).drop 33).take 16 ++ (a ++ b ++ c ++ d).drop 113 = b ++ d := by
    rw [hnonce, hbody]
  rw [iciesDecrypt, if_neg (by omega), htake, hnonce, htag, hbody]

/-- The envelope built by `iciesEncrypt`, decomposed. -/
theorem iciesEncrypt_parts (pub e : Nat) (nonce pt : List Nat) :
    iciesEncrypt pub e nonce pt =
      pkSerialize e ++ nonce ++
        natToBytesLE 64 (macOf (kdf (e * pub)) (nonce ++ maskBytes (kdf (e * pub)) 0 pt)) ++
        maskBytes (kdf (e * pub)) 0 pt := rfl

theorem iciesEncrypt_length (pub e : Nat) (nonce pt : List Nat) (hn : nonce.length = 16) :
    (iciesEncrypt pub e nonce pt).length = 113 + pt.length := by
  rw [iciesEncrypt_parts]
  simp [List.length_append, pkSerialize_length, natToBytesLE_length, maskBytes_length, hn]
  omega

theorem iciesEncrypt_mem_lt (pub e : Nat) (nonce pt : List Nat)
    (hn : ∀ b ∈ nonce, b < 256) : ∀ b ∈ iciesEncrypt pub e nonce pt, b < 256 := by
  intro b hb
  rw [iciesEncrypt_parts] at hb
  simp only [List.mem_append] at hb
  rcases hb with ((h | h) | h) | h
  · exact pkSerialize_mem_lt e b h
  · exact hn b h
  · exact natToBytesLE_mem_lt 64 _ b h
  · exact maskBytes_mem_lt _ 0 pt b h

/-- Round trip of the modelled engine: decrypting with the matching secret
scalar recovers the plaintext. -/
theorem iciesDecrypt_iciesEncrypt (sk e : Nat) (nonce pt : List Nat)
    (hsk1 : 1 ≤ sk) (hsk2 : sk < secpN) (he1 : 1 ≤ e) (he2 : e < secpN)
    (hn : nonce.length = 16) (hpt : ∀ b ∈ pt, b < 256) :
    iciesDecrypt sk (iciesEncrypt sk e nonce pt) = some pt := by
  rw [iciesEncrypt_parts,
    iciesDecrypt_parts sk _ _ _ _ (pkSerialize_length e) hn (natToBytesLE_length 64 _),
    pkParse_pkSerialize e he1 he2]
  have hcomm : sk * e = e * sk := Nat.mul_comm sk e
  simp [hcomm, unmaskBytes_maskBytes _ 0 pt hpt]

/-! ### Non-collision of the modelled authentication tag -/

theorem macM_eq : (256 : Nat) ^ 64 = macM := by norm_num [macM]

theorem macOf_lt (key : Nat) (nb : List Nat) : macOf key nb < macM := by
  exact Nat.mod_lt _ (by norm_num [macM])

/-- Distinct tag values have distinct 64-byte serializations. -/
theorem tagBytes_ne {m1 m2 : Nat} (h1 : m1 < macM) (h2 : m2 < macM) (h : m1 ≠ m2) :
    natToBytesLE 64 m1 ≠ natToBytesLE 64 m2 := by
  intro heq
  exact h (natToBytesLE_inj (by rw [macM_eq]; exact h1) (by rw [macM_eq]; exact h2) heq)

/-- Changing one element of the checksummed list shifts the checksum by the
byte difference times an odd weight, seen in `ZMod macM`. -/
theorem csAux_set_cast : ∀ (l : List Nat) (j x w : Nat), j < l.length →
    (csAux (l.set j x) w : ZMod macM) =
      csAux l w + ((x : ZMod macM) - (l.getD j 0 : Nat)) * ((w * 257 ^ j : Nat) : ZMod macM)
  | [], j, x, w, hj => by simp at hj
  | b :: t, 0, x, w, _ => by
    simp only [List.set, csAux, List.getD_cons_zero, pow_zero, Nat.mul_one]
    push_cast
    ring
  | b :: t, j + 1, x, w, hj => by
    simp only [List.set, csAux, List.getD_cons_succ]
    have ih := csAux_set_cast t j x (w * 257) (by simpa using hj)
    push_cast
    push_cast at ih
    rw [ih]
    ring

/-- A single-byte change in the checksummed list changes the tag. -/
theorem macOf_ne_set (key : Nat) (l : List Nat) (j x : Nat) (hj : j < l.length)
    (hx : x < 256) (hl : ∀ b ∈ l, b < 256) (hne : x ≠ l.getD j 0) :
    macOf key (l.set j x) ≠ macOf key l := by
  intro h
  have hmodeq : csAux (l.set j x) 257 ≡ csAux l 257 [MOD macM] := by
    have h1 : key + csAux (l.set j x) 257 ≡ key + csAux l 257 [MOD macM] := h
    exact Nat.ModEq.add_left_cancel' key h1
  have hcast : (csAux (l.set j x) 257 : ZMod macM) = csAux l 257 :=
    (ZMod.natCast_eq_natCast_iff _ _ _).mpr hmodeq
  rw [csAux_set_cast l j x 257 hj] at hcast
  have hzero : ((x : ZMod macM) - (l.getD j 0 : Nat)) * ((257 * 257 ^ j : Nat) : ZMod macM) = 0 := by
    rwa [add_right_eq_self] at hcast
  have hco : Nat.Coprime (257 * 257 ^ j) macM := by
    have : (257 : Nat) * 257 ^ j = 257 ^ (j + 1) := by ring
    rw [this, macM_eq_pow]
    exact Nat.Coprime.pow (j + 1) 512 (by decide)
  have hu : IsUnit ((257 * 257 ^ j : Nat) : ZMod macM) := by
    have := (ZMod.unitOfCoprime _ hco).isUnit
    rwa [ZMod.coe_unitOfCoprime] at this
  rw [mul_comm] at hzero
  have hsub : (x : ZMod macM) - (l.getD j 0 : Nat) = 0 := (hu.mul_right_eq_zero).mp hzero
  have hxc : (x : ZMod macM) = (l.getD j 0 : Nat) := by
    have := sub_eq_zero.mp hsub
    exact this
  have hmod : x ≡ l.getD j 0 [MOD macM] := (ZMod.natCast_eq_natCast_iff _ _ _).mp hxc
  have hgl : l.getD j 0 < 256 := by
    have hm : l.getD j 0 ∈ l := by
      rw [List.getD_eq_getElem l 0 hj]; exact List.getElem_mem hj
    exact hl _ hm
  have : x = l.getD j 0 := by
    have h1 := hmod
    unfold Nat.ModEq at h1
    rw [Nat.mod_eq_of_lt (lt_trans hx (by norm_num [macM])),
      Nat.mod_eq_of_lt (lt_trans hgl (by norm_num [macM]))] at h1
    exact h1
  exact hne this

/-- Distinct symmetric keys below the tag modulus give distinct tags. -/
theorem macOf_ne_key {key1 key2 : Nat} (nb : List Nat) (h1 : key1 < macM) (h2 : key2 < macM)
    (hne : key1 ≠ key2) : macOf key1 nb ≠ macOf key2 nb := by
  intro h
  have hmodeq : key1 ≡ key2 [MOD macM] := by
    have hadd : csAux nb 257 + key1 ≡ csAux nb 257 + key2 [MOD macM] := by
      have : key1 + csAux nb 257 ≡ key2 + csAux nb 257 [MOD macM] := h
      calc csAux nb 257 + key1 ≡ key1 + csAux nb 257 [MOD macM] := by rw [Nat.add_comm]
      _ ≡ key2 + csAux nb 257 [MOD macM] := this
      _ ≡ csAux nb 257 + key2 [MOD macM] := by rw [Nat.add_comm]
    exact Nat.ModEq.add_left_cancel' _ hadd
  unfold Nat.ModEq at hmodeq
  rw [Nat.mod_eq_of_lt h1, Nat.mod_eq_of_lt h2] at hmodeq
  exact hne hmodeq

/-- Products of two valid scalars stay below the tag modulus. -/
theorem mul_scalars_lt {a b : Nat} (ha : a < secpN) (hb : b < secpN) : a * b < macM := by
  have := Nat.mul_lt_mul'' (lt_of_lt_of_le ha (le_of_lt secpN_lt))
    (lt_of_lt_of_le hb (le_of_lt secpN_lt))
  calc a * b < 2 ^ 256 * 2 ^ 256 := this
  _ = macM := by norm_num [macM]

/-! ### Boundary-level helper lemmas -/

/-- Encrypting under the canonical hex serialization of a valid point. -/
theorem ecies_encrypt_pkHex (g : Entropy) (k : Nat) (m : List Nat)
    (h1 : 1 ≤ k) (h2 : k < secpN) :
    ecies_encrypt g (hexEncode (pkSerialize k)) m =
      some (b64encode (iciesEncrypt k g.eph g.nonce (m.takeWhile (fun b => b ≠ 0)))) := by
  simp [ecies_encrypt, hexDecodeE_hexEncode _ (pkSerialize_mem_lt k),
    pkParse_pkSerialize k h1 h2]

/-- Decrypting a base64-encoded byte envelope with a valid secret scalar. -/
theorem ecies_decrypt_env (d : Entropy) (k : Nat) (env : List Nat)
    (h1 : 1 ≤ k) (h2 : k < secpN) (henv : ∀ b ∈ env, b < 256) :
    ecies_decrypt d (hexEncode (skSerialize k)) (b64encode env) =
      match iciesDecrypt k env with
      | none => none
      | some pt => if 0 ∈ pt then none else some pt := by
  simp only [ecies_decrypt, decodeSecretKey_roundtrip k h1 h2,
    b64decode_b64encode env henv]

/-- Entropy used by the concrete witnesses. -/
def entropyA : Entropy := ⟨1, 2, List.replicate 16 0⟩

/-- Entropy used by the concrete witnesses, distinct draws from `entropyA`. -/
def entropyB : Entropy := ⟨3, 4, List.replicate 16 5⟩

/-- C1 is stated over every plaintext byte sequence; it fails on sequences
containing a NUL byte, because `ecies_encrypt` reads its message through
`CStr::from_ptr` and therefore encrypts only the bytes before the first
NUL: with the generated pair of `entropyA` and message bytes `[65, 0, 66]`,
the round trip returns `[65]`, not the original sequence. -/
theorem claim1_nul_counterexample :
    ((ecies_public_key_from entropyA (ecies_generate_secret_key entropyA)).bind fun pk =>
      (ecies_encrypt entropyA pk [65, 0, 66]).bind fun ct =>
        ecies_decrypt entropyA (ecies_generate_secret_key entropyA) ct) = some [65] ∧
      some [65] ≠ some [65, 0, 66] := by
  constructor
  · decide
  · decide

/-- C1 (amended): for every secret/public key pair generated together and
every NUL-free plaintext byte sequence (including the empty sequence),
decrypting the result of encryption returns the original plaintext:
`ecies_decrypt(secret_hex, ecies_encrypt(public_hex, m)) == m`, where
`public_hex` is derived from `secret_hex`. -/
theorem claim1_roundtrip (g d1 d2 e2 : Entropy) (m : List Nat)
    (hg : ValidEntropy g) (he : ValidEntropy e2)
    (hm : ∀ b ∈ m, b < 256 ∧ b ≠ 0) :
    ((ecies_public_key_from d1 (ecies_generate_secret_key g)).bind fun pk =>
      (ecies_encrypt e2 pk m).bind fun ct =>
        ecies_decrypt d2 (ecies_generate_secret_key g) ct) = some m := by
  obtain ⟨⟨hk1, hk2⟩, _, _, _⟩ := hg
  obtain ⟨_, ⟨he1, he2⟩, hn16, hnb⟩ := he
  have hpk : ecies_public_key_from d1 (ecies_generate_secret_key g) =
      some (hexEncode (pkSerialize g.kSample)) := by
    simp [ecies_public_key_from, ecies_generate_secret_key,
      decodeSecretKey_roundtrip g.kSample hk1 hk2]
  have htw : m.takeWhile (fun b => b ≠ 0) = m :=
    List.takeWhile_eq_self_iff.mpr (fun b hb => by
      have := (hm b hb).2; simpa using this)
  have hmem : ∀ b ∈ iciesEncrypt g.kSample e2.eph e2.nonce m, b < 256 :=
    iciesEncrypt_mem_lt _ _ _ _ hnb
  rw [hpk]
  simp only [Option.some_bind]
  rw [ecies_encrypt_pkHex e2 g.kSample m hk1 hk2, htw]
  simp only [Option.some_bind, ecies_generate_secret_key]
  rw [ecies_decrypt_env d2 g.kSample _ hk1 hk2 hmem,
    iciesDecrypt_iciesEncrypt g.kSample e2.eph e2.nonce m hk1 hk2 he1 he2 hn16
      (fun b hb => (hm b hb).1)]
  have h0 : (0 : Nat) ∉ m := fun h => by
    have := (hm 0 h).2; simp at this
  simp [h0]

/-- C1 witness: the amended round trip evaluated at the generated pair of
`entropyA` and the message bytes `[104, 105]`. -/
theorem claim1_witness :
    ValidEntropy entropyA ∧ ValidEntropy entropyA ∧
      (∀ b ∈ [104, 105], b < 256 ∧ b ≠ 0) ∧
      ((ecies_public_key_from entropyA (ecies_generate_secret_key entropyA)).bind fun pk =>
        (ecies_encrypt entropyA pk [104, 105]).bind fun ct =>
          ecies_decrypt entropyA (ecies_generate_secret_key entropyA) ct) = some [104, 105] :=
  ⟨by decide, by decide, by decide,
    claim1_roundtrip entropyA entropyA entropyA entropyA [104, 105]
      (by decide) (by decide) (by decide)⟩

/-- C3: for every envelope produced under a public key derived from secret
scalar `k`, decrypting with any valid secret scalar `k2 ≠ k` fails: the
recomputed ECDH key differs, so the authentication tag cannot verify and
no plaintext is returned. -/
theorem claim3_cross_key (d : Entropy) (k k2 e : Nat) (nonce m : List Nat)
    (hk1 : 1 ≤ k) (hk2 : k < secpN) (hj1 : 1 ≤ k2) (hj2 : k2 < secpN)
    (hne : k2 ≠ k) (he1 : 1 ≤ e) (he2 : e < secpN)
    (hn : nonce.length = 16) (hnb : ∀ b ∈ nonce, b < 256) (hm : ∀ b ∈ m, b < 256) :
    ecies_decrypt d (hexEncode (skSerialize k2)) (b64encode (iciesEncrypt k e nonce m)) =
      none := by
  have hmem : ∀ b ∈ iciesEncrypt k e nonce m, b < 256 := iciesEncrypt_mem_lt _ _ _ _ hnb
  rw [ecies_decrypt_env d k2 _ hj1 hj2 hmem, iciesEncrypt_parts,
    iciesDecrypt_parts k2 _ _ _ _ (pkSerialize_length e) hn (natToBytesLE_length 64 _),
    pkParse_pkSerialize e he1 he2]
  have hkeys : k2 * e ≠ e * k := by
    intro h
    rw [Nat.mul_comm k2 e] at h
    exact hne (Nat.eq_of_mul_eq_mul_left (by omega) h)
  have htag : natToBytesLE 64 (macOf (kdf (k2 * e)) (nonce ++ maskBytes (kdf (e * k)) 0 m)) ≠
      natToBytesLE 64 (macOf (kdf (e * k)) (nonce ++ maskBytes (kdf (e * k)) 0 m)) := by
    apply tagBytes_ne (macOf_lt _ _) (macOf_lt _ _)
    exact macOf_ne_key _ (mul_scalars_lt hj2 he2) (mul_scalars_lt he2 hk2) hkeys
  have hcond : ¬ (natToBytesLE 64 (macOf (kdf (e * k)) (nonce ++ maskBytes (kdf (e * k)) 0 m)) =
      natToBytesLE 64 (macOf (kdf (k2 * e)) (nonce ++ maskBytes (kdf (e * k)) 0 m))) :=
    fun h => htag h.symm
  simp only [if_neg hcond]

/-- C3 witness: the envelope of secret scalar 1 rejected under secret
scalar 3. -/
theorem claim3_witness :
    (3 : Nat) ≠ 1 ∧
      ecies_decrypt entropyA (hexEncode (skSerialize 3))
        (b64encode (iciesEncrypt 1 2 (List.replicate 16 0) [104, 105])) = none :=
  ⟨by decide,
    claim3_cross_key entropyA 1 3 2 (List.replicate 16 0) [104, 105]
      (by decide) (by decide) (by decide) (by decide) (by decide) (by decide) (by decide)
      (by decide) (by decide) (by decide)⟩

/-- C9: plaintexts crossing the boundary are restricted to NUL-free byte
sequences: `ecies_encrypt` reads its message as a NUL-terminated C string,
so it encrypts only the bytes before the first NUL; and `ecies_decrypt`
fails at `CString::new` whenever the recovered plaintext contains a NUL
byte, rather than returning it. -/
theorem claim9_nul_boundary :
    (∀ (g : Entropy) (pubHex : List Char) (m : List Nat),
      ecies_encrypt g pubHex m = ecies_encrypt g pubHex (m.takeWhile (fun b => b ≠ 0))) ∧
    (∀ (d : Entropy) (k e : Nat) (nonce m : List Nat),
      1 ≤ k → k < secpN → 1 ≤ e → e < secpN → nonce.length = 16 →
      (∀ b ∈ nonce, b < 256) → (∀ b ∈ m, b < 256) → 0 ∈ m →
      ecies_decrypt d (hexEncode (skSerialize k)) (b64encode (iciesEncrypt k e nonce m)) =
        none) := by
  constructor
  · intro g pubHex m
    cases hd : hexDecodeE pubHex with
    | error er => simp [ecies_encrypt, hd]
    | ok bs =>
      cases hp : pkParse bs with
      | none => simp [ecies_encrypt, hd, hp]
      | some p => simp [ecies_encrypt, hd, hp, List.takeWhile_idem]
  · intro d k e nonce m hk1 hk2 he1 he2 hn hnb hm h0
    have hmem : ∀ b ∈ iciesEncrypt k e nonce m, b < 256 := iciesEncrypt_mem_lt _ _ _ _ hnb
    rw [ecies_decrypt_env d k _ hk1 hk2 hmem,
      iciesDecrypt_iciesEncrypt k e nonce m hk1 hk2 he1 he2 hn hm]
    simp [h0]

/-- C9 witness: the decrypt half evaluated on an envelope whose plaintext
is the single NUL byte. -/
theorem claim9_witness :
    (0 ∈ [0]) ∧
      ecies_decrypt entropyA (hexEncode (skSerialize 1))
        (b64encode (iciesEncrypt 1 2 (List.replicate 16 0) [0])) = none :=
  ⟨by decide,
    claim9_nul_boundary.2 entropyA 1 2 (List.replicate 16 0) [0]
      (by decide) (by decide) (by decide) (by decide) (by decide) (by decide) (by decide)
      (by decide)⟩

/-- C6: public-key derivation is deterministic: the source makes no random
draw in `ecies_public_key_from`, so two calls with the same secret-key text
— whatever the state of the process randomness generator at each call —
return byte-identical public-key text. -/
theorem claim6_deterministic (g1 g2 : Entropy) (s : List Char) :
    ecies_public_key_from g1 s = ecies_public_key_from g2 s := rfl

/-- C5: on success, `ecies_generate_secret_key` returns exactly 64 lowercase
hexadecimal characters (a 32-byte key) and `ecies_public_key_from` returns
exactly 66 lowercase hexadecimal characters (the 33-byte compressed point). -/
theorem claim5_key_text :
    (∀ g : Entropy, (ecies_generate_secret_key g).length = 64 ∧
      ∀ c ∈ ecies_generate_secret_key g, isLowerHexDigit c = true) ∧
    (∀ (g : Entropy) (s out : List Char), ecies_public_key_from g s = some out →
      out.length = 66 ∧ ∀ c ∈ out, isLowerHexDigit c = true) := by
  constructor
  · intro g
    constructor
    · rw [ecies_generate_secret_key, hexEncode_length, skSerialize, natToBytesBE_length]
    · exact hexEncode_lower _ (natToBytesBE_mem_lt 32 g.kSample)
  · intro g s out h
    cases hd : decodeSecretKey s with
    | error er => rw [ecies_public_key_from, hd] at h; exact absurd h (by simp)
    | ok k =>
      rw [ecies_public_key_from, hd, Option.some.injEq] at h
      subst h
      constructor
      · rw [hexEncode_length, pkSerialize_length]
      · exact hexEncode_lower _ (pkSerialize_mem_lt k)

/-- C5 witness: the public-key half evaluated on the key text generated
from `entropyA`. -/
theorem claim5_witness :
    ecies_public_key_from entropyA (ecies_generate_secret_key entropyA) =
        some (hexEncode (pkSerialize 1)) ∧
      (hexEncode (pkSerialize 1)).length = 66 ∧
      ∀ c ∈ hexEncode (pkSerialize 1), isLowerHexDigit c = true :=
  ⟨by decide,
    claim5_key_text.2 entropyA (ecies_generate_secret_key entropyA)
      (hexEncode (pkSerialize 1)) (by decide)⟩

/-! ### Envelope prefix decomposition (used for non-determinism) -/

theorem parts_take33 (a r : List Nat) (ha : a.length = 33) : (a ++ r).take 33 = a := by
  rw [← ha]; exact List.take_left a r

theorem parts_nonce16 (a b r : List Nat) (ha : a.length = 33) (hb : b.length = 16) :
    ((a ++ (b ++ r)).drop 33).take 16 = b := by
  have hdrop : (a ++ (b ++ r)).drop 33 = b ++ r := by
    rw [← ha]; exact List.drop_left a _
  rw [hdrop, ← hb]; exact List.take_left b r

/-- Distinct ephemeral randomness yields distinct envelopes. -/
theorem iciesEncrypt_rand_inj (p e1 e2 : Nat) (n1 n2 pt1 pt2 : List Nat)
    (he1 : e1 < secpN) (he2 : e2 < secpN) (hn1 : n1.length = 16) (hn2 : n2.length = 16)
    (h : iciesEncrypt p e1 n1 pt1 = iciesEncrypt p e2 n2 pt2) : e1 = e2 ∧ n1 = n2 := by
  rw [iciesEncrypt_parts, iciesEncrypt_parts] at h
  simp only [List.append_assoc] at h
  have hserial : pkSerialize e1 = pkSerialize e2 := by
    have h1 := congrArg (List.take 33) h
    rw [parts_take33 _ _ (pkSerialize_length e1), parts_take33 _ _ (pkSerialize_length e2)] at h1
    exact h1
  have hephEq : e1 = e2 := by
    have hs := hserial
    simp only [pkSerialize, List.cons.injEq, true_and] at hs
    exact natToBytesBE_inj (lt_of_lt_of_le he1 (by decide)) (lt_of_lt_of_le he2 (by decide)) hs
  have hnonceEq : n1 = n2 := by
    have h1 := congrArg (fun l => (List.drop 33 l).take 16) h
    simp only at h1
    rw [parts_nonce16 _ _ _ (pkSerialize_length e1) hn1,
      parts_nonce16 _ _ _ (pkSerialize_length e2) hn2] at h1
    exact h1
  exact ⟨hephEq, hnonceEq⟩

/-- C7: two `ecies_encrypt` calls with identical public key text and message
whose random draws (ephemeral scalar, nonce) are not both identical never
produce byte-identical envelope text: the envelope embeds the ephemeral
public key and the nonce verbatim, and base64 is injective. -/
theorem claim7_nondeterminism (g1 g2 : Entropy) (pubHex : List Char) (m : List Nat)
    (c1 c2 : List Char) (h1 : ValidEntropy g1) (h2 : ValidEntropy g2)
    (hfresh : g1.eph ≠ g2.eph ∨ g1.nonce ≠ g2.nonce)
    (henc1 : ecies_encrypt g1 pubHex m = some c1)
    (henc2 : ecies_encrypt g2 pubHex m = some c2) : c1 ≠ c2 := by
  obtain ⟨_, ⟨_, he1⟩, hn1, hb1⟩ := h1
  obtain ⟨_, ⟨_, he2⟩, hn2, hb2⟩ := h2
  cases hd : hexDecodeE pubHex with
  | error er =>
    simp only [ecies_encrypt, hd] at henc1
    exact absurd henc1 (by simp)
  | ok bs =>
    cases hp : pkParse bs with
    | none =>
      simp only [ecies_encrypt, hd, hp] at henc1
      exact absurd henc1 (by simp)
    | some p =>
      simp only [ecies_encrypt, hd, hp, Option.some.injEq] at henc1 henc2
      intro hcc
      have henv : iciesEncrypt p g1.eph g1.nonce (m.takeWhile (fun b => b ≠ 0)) =
          iciesEncrypt p g2.eph g2.nonce (m.takeWhile (fun b => b ≠ 0)) := by
        have hb64 : b64encode (iciesEncrypt p g1.eph g1.nonce (m.takeWhile (fun b => b ≠ 0))) =
            b64encode (iciesEncrypt p g2.eph g2.nonce (m.takeWhile (fun b => b ≠ 0))) := by
          rw [henc1, henc2]; exact hcc
        have hd1 := b64decode_b64encode
          (iciesEncrypt p g1.eph g1.nonce (m.takeWhile (fun b => b ≠ 0)))
          (iciesEncrypt_mem_lt p g1.eph g1.nonce (m.takeWhile (fun b => b ≠ 0)) hb1)
        have hd2 := b64decode_b64encode
          (iciesEncrypt p g2.eph g2.nonce (m.takeWhile (fun b => b ≠ 0)))
          (iciesEncrypt_mem_lt p g2.eph g2.nonce (m.takeWhile (fun b => b ≠ 0)) hb2)
        rw [hb64, hd2] at hd1
        exact (Option.some.injEq _ _).mp hd1.symm
      have := iciesEncrypt_rand_inj p g1.eph g2.eph g1.nonce g2.nonce _ _ he1 he2 hn1 hn2 henv
      rcases hfresh with hf | hf
      · exact hf this.1
      · exact hf this.2

/-- C7 witness: the same public key and message encrypted under the draws of
`entropyA` and of `entropyB` give different envelope text. -/
theorem claim7_witness :
    ecies_encrypt entropyA (hexEncode (pkSerialize 1)) [104] =
        some (b64encode (iciesEncrypt 1 2 (List.replicate 16 0) [104])) ∧
      ecies_encrypt entropyB (hexEncode (pkSerialize 1)) [104] =
        some (b64encode (iciesEncrypt 1 4 (List.replicate 16 5) [104])) ∧
      b64encode (iciesEncrypt 1 2 (List.replicate 16 0) [104]) ≠
        b64encode (iciesEncrypt 1 4 (List.replicate 16 5) [104]) :=
  ⟨by decide, by decide,
    claim7_nondeterminism entropyA entropyB (hexEncode (pkSerialize 1)) [104] _ _
      (by decide) (by decide) (by decide) (by decide) (by decide)⟩

/-! ### Case-insensitivity of the hex decoder -/

/-- ASCII uppercase mapping, applied to key text by the caller. -/
def toUpperHex (c : Char) : Char :=
  if 97 ≤ c.toNat ∧ c.toNat ≤ 122 then Char.ofNat (c.toNat - 32) else c

theorem hexDigitVal_toUpper : ∀ n < 16, hexDigitVal (toUpperHex (hexDigitChar n)) = some n := by
  decide

theorem hexDecodePairs_upper : ∀ (bs : List Nat), (∀ b ∈ bs, b < 256) →
    hexDecodePairs ((hexEncode bs).map toUpperHex) = .ok bs
  | [], _ => rfl
  | b :: t, h => by
    have hb : b < 256 := h b (by simp)
    have e1 : hexDigitVal (toUpperHex (hexDigitChar (b / 16))) = some (b / 16) :=
      hexDigitVal_toUpper _ (by omega)
    have e2 : hexDigitVal (toUpperHex (hexDigitChar (b % 16))) = some (b % 16) :=
      hexDigitVal_toUpper _ (by omega)
    have ih := hexDecodePairs_upper t (fun b hb => h b (by simp [hb]))
    simp [hexEncode, hexDecodePairs, List.map, e1, e2, ih, Except.map]
    omega

theorem hexDecodeE_upper (bs : List Nat) (h : ∀ b ∈ bs, b < 256) :
    hexDecodeE ((hexEncode bs).map toUpperHex) = .ok bs := by
  simp [hexDecodeE, List.length_map, hexEncode_length, Nat.mul_mod_right,
    hexDecodePairs_upper bs h]

/-- C10: hex decoding of key inputs is case-insensitive: for every valid
secret key, `ecies_public_key_from` given the uppercase-hex spelling of the
key succeeds and returns the same (lowercase) public-key text as the
lowercase spelling. -/
theorem claim10_case_insensitive (g1 g2 : Entropy) (k : Nat)
    (h1 : 1 ≤ k) (h2 : k < secpN) :
    ecies_public_key_from g1 ((hexEncode (skSerialize k)).map toUpperHex) =
        ecies_public_key_from g2 (hexEncode (skSerialize k)) ∧
      ecies_public_key_from g1 ((hexEncode (skSerialize k)).map toUpperHex) =
        some (hexEncode (pkSerialize k)) := by
  have hlt : k < 256 ^ 32 := lt_of_lt_of_le h2 (by decide)
  have hup : decodeSecretKey ((hexEncode (skSerialize k)).map toUpperHex) = .ok k := by
    rw [decodeSecretKey, skSerialize, hexDecodeE_upper _ (natToBytesBE_mem_lt 32 k)]
    simp [natToBytesBE_length, bytesToNatBE_natToBytesBE 32 k hlt, h1, h2]
  have hlo := decodeSecretKey_roundtrip k h1 h2
  constructor
  · rw [ecies_public_key_from, ecies_public_key_from, hup, hlo]
  · rw [ecies_public_key_from, hup]

/-- C10 witness: the uppercase spelling of the key text of scalar 1. -/
theorem claim10_witness :
    ecies_public_key_from entropyA ((hexEncode (skSerialize 1)).map toUpperHex) =
        ecies_public_key_from entropyA (hexEncode (skSerialize 1)) ∧
      ecies_public_key_from entropyA ((hexEncode (skSerialize 1)).map toUpperHex) =
        some (hexEncode (pkSerialize 1)) :=
  claim10_case_insensitive entropyA entropyA 1 (by decide) (by decide)

/-! ### Decode failure classification -/

theorem hexDecodePairs_badchar : ∀ (s : List Char) (c : Char), s.length % 2 = 0 → c ∈ s →
    hexDigitVal c = none → hexDecodePairs s = .error .invalidChar
  | [], c, _, hc, _ => absurd hc (by simp)
  | [c1], c, hl, _, _ => by simp at hl
  | c1 :: c2 :: t, c, hl, hc, hv => by
    cases h1 : hexDigitVal c1 with
    | none => simp [hexDecodePairs, h1]
    | some d1 =>
      cases h2 : hexDigitVal c2 with
      | none => simp [hexDecodePairs, h1, h2]
      | some d2 =>
        have hct : c ∈ t := by
          rcases List.mem_cons.mp hc with rfl | hc2
          · rw [h1] at hv; exact absurd hv (by simp)
          rcases List.mem_cons.mp hc2 with rfl | hc3
          · rw [h2] at hv; exact absurd hv (by simp)
          · exact hc3
        have ht : t.length % 2 = 0 := by
          simp only [List.length_cons] at hl
          omega
        have ih := hexDecodePairs_badchar t c ht hct hv
        simp [hexDecodePairs, h1, h2, ih, Except.map]

/-- C4: the key-decoding step shared by `ecies_public_key_from` and
`ecies_decrypt` rejects odd-length hex, non-hex characters and wrong
decoded byte length, each with a decode-class error distinct from the
invalid-scalar error reserved for decoded bytes that are not a valid
scalar; any such error aborts both boundary calls. -/
theorem claim4_decode_errors :
    (∀ s : List Char, s.length % 2 = 1 → decodeSecretKey s = .error .oddLength) ∧
    (∀ (s : List Char) (c : Char), s.length % 2 = 0 → c ∈ s → hexDigitVal c = none →
      decodeSecretKey s = .error .invalidChar) ∧
    (∀ (s : List Char) (bs : List Nat), hexDecodeE s = .ok bs → bs.length ≠ 32 →
      decodeSecretKey s = .error .invalidLength) ∧
    (∀ (s : List Char) (bs : List Nat), hexDecodeE s = .ok bs → bs.length = 32 →
      ¬(1 ≤ bytesToNatBE bs ∧ bytesToNatBE bs < secpN) →
      decodeSecretKey s = .error .invalidScalar) ∧
    (isDecodeError .oddLength = true ∧ isDecodeError .invalidChar = true ∧
      isDecodeError .invalidLength = true ∧ isDecodeError .invalidScalar = false) ∧
    (∀ (g : Entropy) (s ct : List Char) (er : FfiError), decodeSecretKey s = .error er →
      ecies_public_key_from g s = none ∧ ecies_decrypt g s ct = none) := by
  refine ⟨?_, ?_, ?_, ?_, by decide, ?_⟩
  · intro s h
    simp [decodeSecretKey, hexDecodeE, h]
  · intro s c hl hc hv
    have : hexDecodeE s = .error .invalidChar := by
      rw [hexDecodeE, if_neg (by omega)]
      exact hexDecodePairs_badchar s c hl hc hv
    simp [decodeSecretKey, this]
  · intro s bs h hlen
    simp [decodeSecretKey, h, hlen]
  · intro s bs h hlen hval
    simp [decodeSecretKey, h, hlen, hval]
  · intro g s ct er h
    constructor
    · simp [ecies_public_key_from, h]
    · simp [ecies_decrypt, h]

/-- C4 witness: the three decode-class rejections and both aborts evaluated
on concrete key text. -/
theorem claim4_witness :
    decodeSecretKey ['a'] = .error .oddLength ∧
      decodeSecretKey ['g', 'g'] = .error .invalidChar ∧
      decodeSecretKey ['a', 'b'] = .error .invalidLength ∧
      ecies_public_key_from entropyA ['a'] = none ∧
      ecies_decrypt entropyA ['a'] [] = none :=
  ⟨claim4_decode_errors.1 ['a'] (by decide),
    claim4_decode_errors.2.1 ['g', 'g'] 'g' (by decide) (by decide) (by decide),
    claim4_decode_errors.2.2.1 ['a', 'b'] [171] (by rfl) (by decide),
    (claim4_decode_errors.2.2.2.2.2 entropyA ['a'] [] .oddLength (by rfl)).1,
    (claim4_decode_errors.2.2.2.2.2 entropyA ['a'] [] .oddLength (by rfl)).2⟩

/-- C8: each boundary call succeeds exactly when every one of its decode,
key-parse and cryptographic steps succeeds — the first failing step aborts
the whole call with no output — and on success the returned buffer is the
complete encoding of the result, never a partial one. -/
theorem claim8_abort_on_error :
    (∀ (g : Entropy) (s out : List Char),
      ecies_public_key_from g s = some out ↔
        ∃ k, decodeSecretKey s = .ok k ∧ out = hexEncode (pkSerialize k)) ∧
    (∀ (g : Entropy) (ph : List Char) (m : List Nat) (out : List Char),
      ecies_encrypt g ph m = some out ↔
        ∃ bs p, hexDecodeE ph = .ok bs ∧ pkParse bs = some p ∧
          out = b64encode (iciesEncrypt p g.eph g.nonce (m.takeWhile (fun b => b ≠ 0)))) ∧
    (∀ (g : Entropy) (s ct : List Char) (out : List Nat),
      ecies_decrypt g s ct = some out ↔
        ∃ k env, decodeSecretKey s = .ok k ∧ b64decode ct = some env ∧
          iciesDecrypt k env = some out ∧ 0 ∉ out) := by
  refine ⟨?_, ?_, ?_⟩
  · intro g s out
    cases h : decodeSecretKey s with
    | error er => simp [ecies_public_key_from, h]
    | ok k => simp [ecies_public_key_from, h, eq_comm]
  · intro g ph m out
    cases hd : hexDecodeE ph with
    | error er => simp [ecies_encrypt, hd]
    | ok bs =>
      cases hp : pkParse bs with
      | none => simp [ecies_encrypt, hd, hp]
      | some p => simp [ecies_encrypt, hd, hp, eq_comm]
  · intro g s ct out
    cases h : decodeSecretKey s with
    | error er => simp [ecies_decrypt, h]
    | ok k =>
      cases hb : b64decode ct with
      | none => simp [ecies_decrypt, h, hb]
      | some env =>
        cases hi : iciesDecrypt k env with
        | none => simp [ecies_decrypt, h, hb, hi]
        | some pt =>
          by_cases h0 : 0 ∈ pt
          · simp [ecies_decrypt, h, hb, hi, h0]
            intro hout
            rw [hout] at h0
            exact h0
          · simp [ecies_decrypt, h, hb, hi, h0, eq_comm]
            intro hout
            rw [hout]
            exact h0

/-! ### Tamper detection: region lemmas -/

/-- Tampering inside the serialized ephemeral public key: the point either
no longer parses or parses to a different point, whose ECDH key cannot
verify the tag. -/
theorem tamper_eph (k e x i : Nat) (nonce body : List Nat)
    (hk1 : 1 ≤ k) (hk2 : k < secpN) (he2 : e < secpN)
    (hn : nonce.length = 16) (hx : x < 256) (hi : i < 33)
    (hne : x ≠ (pkSerialize e).getD i 0) :
    iciesDecrypt k (((pkSerialize e).set i x ++ nonce ++
        natToBytesLE 64 (macOf (kdf (e * k)) (nonce ++ body)) ++ body)) = none := by
  have hlen : ((pkSerialize e).set i x).length = 33 := by
    rw [List.length_set, pkSerialize_length]
  rw [iciesDecrypt_parts k _ _ _ _ hlen hn (natToBytesLE_length 64 _)]
  rcases Nat.eq_zero_or_pos i with rfl | hpos
  · -- the format byte is changed: the point no longer parses
    have hx2 : x ≠ 2 := by
      simpa [pkSerialize] using hne
    simp [pkSerialize, List.set, pkParse, hx2]
  · -- a payload byte is changed: a different (or invalid) point
    obtain ⟨j, rfl⟩ : ∃ j, i = j + 1 := ⟨i - 1, by omega⟩
    have hj : j < 32 := by omega
    have hjlen : j < (natToBytesBE 32 e).length := by rw [natToBytesBE_length]; exact hj
    have hset : (pkSerialize e).set (j + 1) x = 2 :: (natToBytesBE 32 e).set j x := by
      simp [pkSerialize, List.set]
    rw [hset]
    have hgd : (pkSerialize e).getD (j + 1) 0 = (natToBytesBE 32 e).getD j 0 := by
      simp [pkSerialize]
    rw [hgd] at hne
    have hplen : ((natToBytesBE 32 e).set j x).length = 32 := by
      rw [List.length_set, natToBytesBE_length]
    have hmem : ∀ b ∈ (natToBytesBE 32 e).set j x, b < 256 := by
      intro b hb
      rcases List.mem_or_eq_of_mem_set hb with h | rfl
      · exact natToBytesBE_mem_lt 32 e b h
      · exact hx
    have hvne : bytesToNatBE ((natToBytesBE 32 e).set j x) ≠ e := by
      intro hv
      have hlists : (natToBytesBE 32 e).set j x = natToBytesBE 32 e := by
        apply bytesToNatBE_inj (by rw [hplen, natToBytesBE_length]) hmem
          (natToBytesBE_mem_lt 32 e)
        rw [hv, bytesToNatBE_natToBytesBE 32 e (lt_of_lt_of_le he2 (by decide))]
      exact set_ne_of_ne _ j x 0 hjlen hne hlists
    by_cases hval : 1 ≤ bytesToNatBE ((natToBytesBE 32 e).set j x) ∧
        bytesToNatBE ((natToBytesBE 32 e).set j x) < secpN
    · have hparse : pkParse (2 :: (natToBytesBE 32 e).set j x) =
          some (bytesToNatBE ((natToBytesBE 32 e).set j x)) := by
        simp [pkParse, hplen, hval]
      have hkeys : k * bytesToNatBE ((natToBytesBE 32 e).set j x) ≠ e * k := by
        intro hk
        rw [Nat.mul_comm e k] at hk
        exact hvne (Nat.eq_of_mul_eq_mul_left (by omega) hk)
      have htag : natToBytesLE 64
            (macOf (kdf (k * bytesToNatBE ((natToBytesBE 32 e).set j x))) (nonce ++ body)) ≠
          natToBytesLE 64 (macOf (kdf (e * k)) (nonce ++ body)) := by
        apply tagBytes_ne (macOf_lt _ _) (macOf_lt _ _)
        exact macOf_ne_key _ (mul_scalars_lt hk2 hval.2) (mul_scalars_lt he2 hk2) hkeys
      have hcond : ¬(natToBytesLE 64 (macOf (kdf (e * k)) (nonce ++ body)) =
          natToBytesLE 64 (macOf (kdf (k * bytesToNatBE ((natToBytesBE 32 e).set j x)))
            (nonce ++ body))) := fun h => htag h.symm
      simp only [hparse, if_neg hcond]
    · have hparse : pkParse (2 :: (natToBytesBE 32 e).set j x) = none := by
        simp [pkParse, hplen, hval]
      simp only [hparse]

/-- Tampering inside the nonce: the tag was computed over the original
nonce and cannot verify. -/
theorem tamper_nonce (k e x j : Nat) (nonce body : List Nat)
    (he1 : 1 ≤ e) (he2 : e < secpN) (hn : nonce.length = 16)
    (hnb : ∀ b ∈ nonce, b < 256) (hbody : ∀ b ∈ body, b < 256)
    (hx : x < 256) (hj : j < 16) (hne : x ≠ nonce.getD j 0) :
    iciesDecrypt k (pkSerialize e ++ nonce.set j x ++
        natToBytesLE 64 (macOf (kdf (e * k)) (nonce ++ body)) ++ body) = none := by
  have hjn : j < nonce.length := by rw [hn]; exact hj
  have hlen : (nonce.set j x).length = 16 := by rw [List.length_set, hn]
  rw [iciesDecrypt_parts k _ _ _ _ (pkSerialize_length e) hlen (natToBytesLE_length 64 _)]
  simp only [pkParse_pkSerialize e he1 he2]
  have happ : nonce.set j x ++ body = (nonce ++ body).set j x :=
    (set_append_left nonce body j x hjn).symm
  have hgd : (nonce ++ body).getD j 0 = nonce.getD j 0 := getD_append_left nonce body j 0 hjn
  have hmemnb : ∀ b ∈ nonce ++ body, b < 256 := by
    intro b hb
    rcases List.mem_append.mp hb with h | h
    · exact hnb b h
    · exact hbody b h
  have htag : natToBytesLE 64 (macOf (kdf (e * k)) ((nonce ++ body).set j x)) ≠
      natToBytesLE 64 (macOf (kdf (e * k)) (nonce ++ body)) := by
    apply tagBytes_ne (macOf_lt _ _) (macOf_lt _ _)
    apply macOf_ne_set _ _ j x (by rw [List.length_append]; omega) hx hmemnb
    rw [hgd]; exact hne
  rw [happ, Nat.mul_comm k e]
  have hcond : ¬(natToBytesLE 64 (macOf (kdf (e * k)) (nonce ++ body)) =
      natToBytesLE 64 (macOf (kdf (e * k)) ((nonce ++ body).set j x))) :=
    fun h => htag h.symm
  simp only [if_neg hcond]

/-- Tampering inside the stored tag: it no longer matches the recomputed
tag. -/
theorem tamper_tag (k e x j : Nat) (nonce body : List Nat)
    (he1 : 1 ≤ e) (he2 : e < secpN) (hn : nonce.length = 16) (hj : j < 64)
    (hne : x ≠ (natToBytesLE 64 (macOf (kdf (e * k)) (nonce ++ body))).getD j 0) :
    iciesDecrypt k (pkSerialize e ++ nonce ++
        (natToBytesLE 64 (macOf (kdf (e * k)) (nonce ++ body))).set j x ++ body) = none := by
  have hjt : j < (natToBytesLE 64 (macOf (kdf (e * k)) (nonce ++ body))).length := by
    rw [natToBytesLE_length]; exact hj
  have hlen : ((natToBytesLE 64 (macOf (kdf (e * k)) (nonce ++ body))).set j x).length = 64 := by
    rw [List.length_set, natToBytesLE_length]
  rw [iciesDecrypt_parts k _ _ _ _ (pkSerialize_length e) hn hlen]
  simp only [pkParse_pkSerialize e he1 he2]
  rw [Nat.mul_comm k e]
  have hcond : ¬((natToBytesLE 64 (macOf (kdf (e * k)) (nonce ++ body))).set j x =
      natToBytesLE 64 (macOf (kdf (e * k)) (nonce ++ body))) :=
    set_ne_of_ne _ j x 0 hjt hne
  simp only [if_neg hcond]

/-- Tampering inside the ciphertext body: the tag binds the body and cannot
verify. -/
theorem tamper_body (k e x j : Nat) (nonce body : List Nat)
    (he1 : 1 ≤ e) (he2 : e < secpN) (hn : nonce.length = 16)
    (hnb : ∀ b ∈ nonce, b < 256) (hbody : ∀ b ∈ body, b < 256)
    (hx : x < 256) (hj : j < body.length) (hne : x ≠ body.getD j 0) :
    iciesDecrypt k (pkSerialize e ++ nonce ++
        natToBytesLE 64 (macOf (kdf (e * k)) (nonce ++ body)) ++ body.set j x) = none := by
  rw [iciesDecrypt_parts k _ _ _ _ (pkSerialize_length e) hn (natToBytesLE_length 64 _)]
  simp only [pkParse_pkSerialize e he1 he2]
  have happ : nonce ++ body.set j x = (nonce ++ body).set (16 + j) x := by
    have h := set_append_right nonce body j x
    rw [hn] at h
    exact h.symm
  have hgd : (nonce ++ body).getD (16 + j) 0 = body.getD j 0 := by
    have h := getD_append_right nonce body j 0
    rw [hn] at h
    exact h
  have hmemnb : ∀ b ∈ nonce ++ body, b < 256 := by
    intro b hb
    rcases List.mem_append.mp hb with h | h
    · exact hnb b h
    · exact hbody b h
  have htag : natToBytesLE 64 (macOf (kdf (e * k)) ((nonce ++ body).set (16 + j) x)) ≠
      natToBytesLE 64 (macOf (kdf (e * k)) (nonce ++ body)) := by
    apply tagBytes_ne (macOf_lt _ _) (macOf_lt _ _)
    apply macOf_ne_set _ _ (16 + j) x (by rw [List.length_append, hn]; omega) hx hmemnb
    rw [hgd]; exact hne
  rw [happ, Nat.mul_comm k e]
  have hcond : ¬(natToBytesLE 64 (macOf (kdf (e * k)) (nonce ++ body)) =
      natToBytesLE 64 (macOf (kdf (e * k)) ((nonce ++ body).set (16 + j) x))) :=
    fun h => htag h.symm
  simp only [if_neg hcond]

/-- C2: flipping any single byte of a valid binary envelope produced by the
encryption path makes `ecies_decrypt` (with the matching secret key) fail:
whichever region the byte lies in — ephemeral public key, nonce, tag or
ciphertext body — the envelope either no longer parses or its
authentication tag no longer verifies, and no plaintext is ever returned. -/
theorem claim2_tamper (d : Entropy) (k e x i : Nat) (nonce m : List Nat)
    (hk1 : 1 ≤ k) (hk2 : k < secpN) (he1 : 1 ≤ e) (he2 : e < secpN)
    (hn : nonce.length = 16) (hnb : ∀ b ∈ nonce, b < 256) (hm : ∀ b ∈ m, b < 256)
    (hx : x < 256) (hi : i < (iciesEncrypt k e nonce m).length)
    (hne : x ≠ (iciesEncrypt k e nonce m).getD i 0) :
    ecies_decrypt d (hexEncode (skSerialize k))
      (b64encode ((iciesEncrypt k e nonce m).set i x)) = none := by
  have hmemenv : ∀ b ∈ iciesEncrypt k e nonce m, b < 256 :=
    iciesEncrypt_mem_lt k e nonce m hnb
  have hmemset : ∀ b ∈ (iciesEncrypt k e nonce m).set i x, b < 256 := by
    intro b hb
    rcases List.mem_or_eq_of_mem_set hb with h | rfl
    · exact hmemenv b h
    · exact hx
  rw [ecies_decrypt_env d k _ hk1 hk2 hmemset]
  suffices h : iciesDecrypt k ((iciesEncrypt k e nonce m).set i x) = none by rw [h]
  have hienv := iciesEncrypt_length k e nonce m hn
  rw [iciesEncrypt_length k e nonce m hn] at hi
  rw [iciesEncrypt_parts] at hne ⊢
  set B := maskBytes (kdf (e * k)) 0 m with hBd
  set T := natToBytesLE 64 (macOf (kdf (e * k)) (nonce ++ B)) with hTd
  set A := pkSerialize e with hAd
  have hAl : A.length = 33 := pkSerialize_length e
  have hTl : T.length = 64 := natToBytesLE_length 64 _
  have hBl : B.length = m.length := maskBytes_length _ 0 m
  have hBb : ∀ b ∈ B, b < 256 := maskBytes_mem_lt _ 0 m
  have hl49 : (A ++ nonce).length = 49 := by rw [List.length_append, hAl, hn]
  have hl113 : (A ++ nonce ++ T).length = 113 := by rw [List.length_append, hl49, hTl]
  rcases Nat.lt_or_ge i 33 with hc | hc
  · -- ephemeral public key region
    rw [set_append_left _ B i x (by omega), set_append_left _ T i x (by omega),
      set_append_left A nonce i x (by omega)]
    rw [getD_append_left _ B i 0 (by omega), getD_append_left _ T i 0 (by omega),
      getD_append_left A nonce i 0 (by omega)] at hne
    exact tamper_eph k e x i nonce B hk1 hk2 he2 hn hx hc hne
  rcases Nat.lt_or_ge i 49 with hc2 | hc2
  · -- nonce region
    obtain ⟨j, rfl⟩ : ∃ j, i = 33 + j := ⟨i - 33, by omega⟩
    have hsr := set_append_right A nonce j x
    rw [hAl] at hsr
    rw [set_append_left _ B (33 + j) x (by omega), set_append_left _ T (33 + j) x (by omega),
      hsr]
    have hgr := getD_append_right A nonce j 0
    rw [hAl] at hgr
    rw [getD_append_left _ B (33 + j) 0 (by omega),
      getD_append_left _ T (33 + j) 0 (by omega), hgr] at hne
    exact tamper_nonce k e x j nonce B he1 he2 hn hnb hBb hx (by omega) hne
  rcases Nat.lt_or_ge i 113 with hc3 | hc3
  · -- tag region
    obtain ⟨j, rfl⟩ : ∃ j, i = 49 + j := ⟨i - 49, by omega⟩
    have hsr := set_append_right (A ++ nonce) T j x
    rw [hl49] at hsr
    rw [set_append_left _ B (49 + j) x (by omega), hsr]
    have hgr := getD_append_right (A ++ nonce) T j 0
    rw [hl49] at hgr
    rw [getD_append_left _ B (49 + j) 0 (by omega), hgr] at hne
    exact tamper_tag k e x j nonce B he1 he2 hn (by omega) hne
  · -- ciphertext body region
    obtain ⟨j, rfl⟩ : ∃ j, i = 113 + j := ⟨i - 113, by omega⟩
    have hsr := set_append_right (A ++ nonce ++ T) B j x
    rw [hl113] at hsr
    rw [hsr]
    have hgr := getD_append_right (A ++ nonce ++ T) B j 0
    rw [hl113] at hgr
    rw [hgr] at hne
    exact tamper_body k e x j nonce B he1 he2 hn hnb hBb hx (by omega) hne

/-- C2 witness: flipping the envelope's first byte (the compressed-point
format byte, 2 → 3) makes decryption fail. -/
theorem claim2_witness :
    (0 < (iciesEncrypt 1 2 (List.replicate 16 0) [104, 105]).length) ∧
      (3 : Nat) ≠ (iciesEncrypt 1 2 (List.replicate 16 0) [104, 105]).getD 0 0 ∧
      ecies_decrypt entropyA (hexEncode (skSerialize 1))
        (b64encode ((iciesEncrypt 1 2 (List.replicate 16 0) [104, 105]).set 0 3)) = none :=
  ⟨by decide, by decide,
    claim2_tamper entropyA 1 2 3 0 (List.replicate 16 0) [104, 105]
      (by decide) (by decide) (by decide) (by decide) (by decide) (by decide) (by decide)
      (by decide) (by decide) (by decide)⟩
